import Mathlib

/-!
Verification of the JStory text-chunking component
(`src/infrastructure/chunking.py`, class `LangChainTextChunker`).

Text is modelled as `List Char`.  Python string primitives (`strip`,
`split('\n\n')`, `split('\n')`, `str.split()`, slicing, `count`) are given
executable Lean counterparts; the chunker itself is a direct translation of
`chunk_text` and `_find_story_boundaries`.  The oversize-segment fallback in
the source is langchain's `RecursiveCharacterTextSplitter`, an external
library; the top-level dispatch is therefore parameterised over the splitter
(`chunkTextWith`), and a concrete splitter modelled from the spec's §4.2
fixed-window algorithm is plugged in for the executable `chunkText`.
-/

namespace JStory

/-- ASCII whitespace as recognised by Python's `str.strip()` (with no
arguments) and by the regex class `\s`: space, tab, newline, carriage
return, vertical tab, form feed.  (Unicode whitespace is out of scope.) -/
def pySpace (c : Char) : Bool :=
  c = ' ' || c = '\t' || c = '\n' || c = '\r' || c = '\x0b' || c = '\x0c'

/-- Python `s.strip()`: remove leading and trailing whitespace. -/
def strip (s : List Char) : List Char :=
  ((s.dropWhile pySpace).reverse.dropWhile pySpace).reverse

/-- Python slice `s[a:b]` for natural `a ≤ b` (clamped at the ends). -/
def pySlice (s : List Char) (a b : Nat) : List Char :=
  (s.drop a).take (b - a)

/-- Python `text.split('\n\n')`: split on non-overlapping occurrences of the
two-character separator, left to right, keeping empty pieces. -/
def splitNN : List Char → List (List Char)
  | '\n' :: '\n' :: rest => [] :: splitNN rest
  | c :: rest =>
    match splitNN rest with
    | [] => [[c]]
    | h :: t => (c :: h) :: t
  | [] => [[]]

/-- Python `'\n\n' in text`. -/
def hasNN : List Char → Bool
  | '\n' :: '\n' :: _ => true
  | _ :: rest => hasNN rest
  | [] => false

/-- Python `text.split('\n')`, keeping empty pieces. -/
def splitLines : List Char → List (List Char)
  | '\n' :: rest => [] :: splitLines rest
  | c :: rest =>
    match splitLines rest with
    | [] => [[c]]
    | h :: t => (c :: h) :: t
  | [] => [[]]

/-- Python `text.split()` (no arguments): words separated by runs of
whitespace, with empty tokens discarded. -/
def pyWords (s : List Char) : List (List Char) :=
  match s with
  | [] => []
  | c :: rest =>
    if pySpace c then pyWords rest
    else (c :: rest.takeWhile (fun d => !pySpace d)) ::
         pyWords (rest.dropWhile (fun d => !pySpace d))
termination_by s.length
decreasing_by
  · simp only [List.length_cons]; omega
  · have := (List.dropWhile_sublist (l := rest) (fun d => !pySpace d)).length_le
    simp only [List.length_cons]; omega

/-- Python `' '.join(words)`. -/
def joinWords : List (List Char) → List Char
  | [] => []
  | [w] => w
  | w :: x :: rest => w ++ ' ' :: joinWords (x :: rest)

/-- Inverse of `splitNN`: rejoin pieces with the `"\n\n"` separator. -/
def joinNN : List (List Char) → List Char
  | [] => []
  | [p] => p
  | p :: q :: rest => p ++ '\n' :: '\n' :: joinNN (q :: rest)

/-- Inverse of `splitLines`: rejoin lines with the `'\n'` separator. -/
def joinLines : List (List Char) → List Char
  | [] => []
  | [p] => p
  | p :: q :: rest => p ++ '\n' :: joinLines (q :: rest)

/-- `ascendingFrom lo l`: the naturals in `l` are strictly increasing and
all at least `lo`. -/
def ascendingFrom (lo : Nat) : List Nat → Prop
  | [] => True
  | b :: rest => lo ≤ b ∧ ascendingFrom (b + 1) rest

/-! ### Story-boundary regular expressions

The six patterns of `self.story_patterns`, each applied with `re.match`
(anchored at the start, no need to consume the whole string) under
`re.IGNORECASE`.  Under `IGNORECASE`, `[A-Z]` and `[a-z]` both mean any
ASCII letter and the literal keywords match case-insensitively. -/

/-- Case-insensitive comparison of two characters (ASCII). -/
def lowerEq (a b : Char) : Bool := a.toLower == b.toLower

/-- Drop a case-insensitive keyword from the front; `none` if it is not
there. -/
def dropKw : List Char → List Char → Option (List Char)
  | [], l => some l
  | _ :: _, [] => none
  | k :: ks, c :: rest => if lowerEq c k then dropKw ks rest else none

/-- Does the list start with `':'` or `'-'`?  (the regex class `[:\-]`). -/
def headColonDash : List Char → Bool
  | ':' :: _ => true
  | '-' :: _ => true
  | _ => false

/-- Match `\s+\d+[:\-]` at the front (the classes `\s` and `\d`, and `\d`
and `[:\-]`, are disjoint, so greedy matching needs no backtracking). -/
def matchNumColon (l : List Char) : Bool :=
  let l₁ := l.dropWhile pySpace
  decide (l₁.length < l.length) &&
    (let l₂ := l₁.dropWhile Char.isDigit
     decide (l₂.length < l₁.length) && headColonDash l₂)

/-- `^Story\s+\d+[:\-]` under IGNORECASE. -/
def patStory (l : List Char) : Bool :=
  match dropKw ['s', 't', 'o', 'r', 'y'] l with
  | some rest => matchNumColon rest
  | none => false

/-- `^Chapter\s+\d+[:\-]` under IGNORECASE. -/
def patChapter (l : List Char) : Bool :=
  match dropKw ['c', 'h', 'a', 'p', 't', 'e', 'r'] l with
  | some rest => matchNumColon rest
  | none => false

/-- `^STORY\s+\d+[:\-]` under IGNORECASE (same language as `patStory`,
kept separate because the source lists it separately). -/
def patStoryUpper (l : List Char) : Bool :=
  match dropKw ['s', 't', 'o', 'r', 'y'] l with
  | some rest => matchNumColon rest
  | none => false

/-- Does the list start with an ASCII letter? -/
def headAlpha : List Char → Bool
  | c :: _ => c.isAlpha
  | [] => false

/-- Tail of `^\d+\.\s+[A-Z]` after the digits: `\.\s+[A-Z]`. -/
def afterNumDot : List Char → Bool
  | '.' :: rest =>
    let r₁ := rest.dropWhile pySpace
    decide (r₁.length < rest.length) && headAlpha r₁
  | _ => false

/-- `^\d+\.\s+[A-Z]` under IGNORECASE ("1. Title"). -/
def patNumbered (l : List Char) : Bool :=
  let l₁ := l.dropWhile Char.isDigit
  decide (l₁.length < l.length) && afterNumDot l₁

/-- `^[A-Z][a-z]+\s+\d+[:\-]` under IGNORECASE ("Tale 1:", "Fable 2-"). -/
def patWordNum (l : List Char) : Bool :=
  match l with
  | c :: rest =>
    c.isAlpha &&
      (let r₁ := rest.dropWhile Char.isAlpha
       decide (r₁.length < rest.length) && matchNumColon r₁)
  | [] => false

/-- Scan for `[^.!?]*\n\n`: an occurrence of `"\n\n"` reachable without
crossing `'.'`, `'!'` or `'?'` (existence semantics of backtracking). -/
def scanToNN : List Char → Bool
  | '\n' :: '\n' :: _ => true
  | c :: rest => !(c == '.' || c == '!' || c == '?') && scanToNN rest
  | [] => false

/-- `\n\n[A-Z][^.!?]*\n\n` under IGNORECASE, anchored by `re.match`.
It can only fire on a string that starts with two newlines; the lines it
is tested on contain no newline at all, so it never fires in practice. -/
def patTitleBlock (l : List Char) : Bool :=
  match l with
  | '\n' :: '\n' :: c :: rest => c.isAlpha && scanToNN rest
  | _ => false

/-- `self.story_patterns`, in source order. -/
def storyPatterns : List (List Char → Bool) :=
  [patStory, patChapter, patStoryUpper, patNumbered, patWordNum, patTitleBlock]

/-! ### `_find_story_boundaries` -/

/-- The per-line boundary decision of `_find_story_boundaries`: the line's
stripped text matches one of the six patterns, or the line is an interior
blank line whose successor looks like a title (non-empty, shorter than 100
characters, not ending in `'.'`). -/
def lineIsBoundary (lines : List (List Char)) (i : Nat) : Bool :=
  let line_stripped := strip (lines.getD i [])
  storyPatterns.any (fun p => p line_stripped) ||
    (decide (0 < i) && line_stripped.isEmpty && decide (i < lines.length - 1) &&
      decide (i + 1 < lines.length) &&
      (let next_line := strip (lines.getD (i + 1) [])
       !next_line.isEmpty && decide (next_line.length < 100) &&
         !(next_line.getLast? == some '.')))

/-- The loop of `_find_story_boundaries`: walk the lines carrying the index
`i` and the character position `pos` of the current line's start, recording
`pos` whenever the line is a boundary and `pos > 0`. -/
def findBoundariesAux (lines : List (List Char)) :
    List (List Char) → Nat → Nat → List Nat
  | [], _, _ => []
  | l :: rest, i, pos =>
    (if lineIsBoundary lines i && decide (0 < pos) then [pos] else []) ++
      findBoundariesAux lines rest (i + 1) (pos + l.length + 1)

/-- `_find_story_boundaries`: position 0 plus the recorded boundary
positions. -/
def findStoryBoundaries (text : List Char) : List Nat :=
  let lines := splitLines text
  0 :: findBoundariesAux lines lines 0 0

/-! ### The chunker -/

/-- The constructor state of `LangChainTextChunker` (`__init__` defaults
`chunk_size=1000`, `chunk_overlap=200`). -/
structure LangChainTextChunker where
  chunk_size : Nat := 1000
  chunk_overlap : Nat := 200

/-- Python's `arg or default` applied to an optional integer argument:
`None` and `0` are falsy, so both select the default. -/
def orDefault (x : Option Nat) (dflt : Nat) : Nat :=
  match x with
  | none => dflt
  | some n => if n = 0 then dflt else n

/-- Forward progress rule of the spec's fixed-window chunker: advance the
window start by `windowEnd - overlapWords`, but never less than
`previousStart + 1`. -/
def nextStart (start windowEnd overlapWords : Nat) : Nat :=
  max (windowEnd - overlapWords) (start + 1)

/-- Modelled from the spec: the sliding-window loop of the fixed-window
chunker (§4.2).  Emits each window of at most `maxW` words starting at
`start` (when it has at least `minW` words), advancing with `nextStart`
until the window end reaches the word count. -/
def fwLoop (ws : List (List Char)) (minW maxW ov : Nat) (start : Nat) :
    List (List Char) :=
  let n := ws.length
  let e := min (start + maxW) n
  let emit :=
    if minW ≤ e - start then [joinWords ((ws.drop start).take (e - start))] else []
  if _h : e < n then emit ++ fwLoop ws minW maxW ov (nextStart start e ov)
  else emit
termination_by ws.length - start
decreasing_by
  have hs : start < ws.length := by
    have : min (start + maxW) ws.length ≤ start + maxW := Nat.min_le_left _ _
    omega
  have hn : start < nextStart start (min (start + maxW) ws.length) ov :=
    Nat.lt_of_lt_of_le (Nat.lt_succ_self start) (Nat.le_max_right _ _)
  exact Nat.sub_lt_sub_left hs hn

/-- Modelled from the spec: the fixed-window chunker of §4.2.  The source's
implementation of this variant is absent from the repository (only its
configuration `min_words` / `max_words` / `overlap_words` appears in
`settings.py`); this definition follows the spec's words: split into
whitespace-delimited words; if the word count is at most `maxW` return the
whole trimmed text as one chunk (empty input gives the empty sequence per
§7); otherwise slide the window, and if the loop emits nothing fall back to
the whole trimmed text. -/
def fixedWindowChunk (minW maxW ov : Nat) (text : List Char) :
    List (List Char) :=
  let ws := pyWords text
  if ws.length ≤ maxW then
    if strip text = [] then [] else [strip text]
  else
    let cs := fwLoop ws minW maxW ov 0
    if cs = [] then [strip text] else cs

/-- Modelled from the spec: the oversize-segment fallback splitter.  The
source calls langchain's `RecursiveCharacterTextSplitter` (an external
library, not part of this repository); the spec (§4.1 step 2) describes the
fallback as the §4.2 fixed-size splitter invoked with the given size and
overlap.  `minWords` is the spec's configured default, 1. -/
def fallbackSplit (cs co : Nat) (s : List Char) : List (List Char) :=
  fixedWindowChunk 1 cs co s

/-- Expansion of one candidate segment (the body of both `for chunk in
chunks` loops in `chunk_text`): oversize segments (strictly longer than
`3 * chunk_size`) are replaced by the fallback splitter's sub-chunks,
others are kept whole. -/
def emitStory (split : Nat → Nat → List Char → List (List Char))
    (cs co : Nat) (story : List Char) : List (List Char) :=
  if story = [] then []
  else if cs * 3 < story.length then split cs co story
  else [story]

/-- The boundary-extraction loop of `chunk_text`: between consecutive
boundaries (the last one paired with the end of the text), slice, strip,
drop empties, and expand oversize stories. -/
def extractStories (split : Nat → Nat → List Char → List (List Char))
    (cs co : Nat) (text : List Char) : List Nat → List (List Char)
  | [] => []
  | [b] => emitStory split cs co (strip (pySlice text b text.length))
  | b :: b₂ :: rest =>
    emitStory split cs co (strip (pySlice text b b₂)) ++
      extractStories split cs co text (b₂ :: rest)

/-- The pattern-based part of `chunk_text` (after the blank-line attempt has
been abandoned): find boundaries; with at most one boundary return the
trimmed text (or nothing if blank); otherwise extract the stories. -/
def boundaryChunks (split : Nat → Nat → List Char → List (List Char))
    (cs co : Nat) (text : List Char) : List (List Char) :=
  let boundaries := findStoryBoundaries text
  if boundaries.length ≤ 1 then
    if strip text = [] then [] else [strip text]
  else extractStories split cs co text boundaries

/-- `chunk_text`, parameterised over the oversize fallback splitter.  The
blank-line candidate list is hoisted out of the `if` (it is pure); the
blank-line path returns exactly when the source does: the entry condition
holds and splitting gave more than one non-empty segment.  The float
comparison `text.count('\n') > text.count(' ') / 10` is modelled by the
equivalent integer comparison `10 * count('\n') > count(' ')`. -/
def chunkTextWith (split : Nat → Nat → List Char → List (List Char))
    (self : LangChainTextChunker) (text : List Char)
    (ocs oco : Option Nat) : List (List Char) :=
  let chunk_size := orDefault ocs self.chunk_size
  let chunk_overlap := orDefault oco self.chunk_overlap
  let blankChunks :=
    ((splitNN text).filter (fun c => !(strip c).isEmpty)).map strip
  if (hasNN text || decide (10 * text.count '\n' > text.count ' ')) &&
      decide (1 < blankChunks.length) then
    blankChunks.flatMap (emitStory split chunk_size chunk_overlap)
  else boundaryChunks split chunk_size chunk_overlap text

/-- `chunk_text` with the concrete (spec-modelled) fallback splitter. -/
def chunkText (self : LangChainTextChunker) (text : List Char)
    (ocs oco : Option Nat) : List (List Char) :=
  chunkTextWith fallbackSplit self text ocs oco

/-- Stated from the spec's words (for comparison with the code): a line
"ends in a sentence terminator" when its last character is `'.'`, `'!'` or
`'?'`. -/
def endsInSentenceTerminator (l : List Char) : Bool :=
  l.getLast? == some '.' || l.getLast? == some '!' || l.getLast? == some '?'

/-! ## Lemmas about `strip` -/

theorem strip_decomp (s : List Char) :
    ∃ u v, s = u ++ strip s ++ v ∧ (∀ c ∈ u, pySpace c = true) ∧
      (∀ c ∈ v, pySpace c = true) := by
  refine ⟨s.takeWhile pySpace,
    (((s.dropWhile pySpace).reverse.takeWhile pySpace)).reverse, ?_, ?_, ?_⟩
  · conv_lhs => rw [← List.takeWhile_append_dropWhile (p := pySpace) (l := s)]
    rw [List.append_assoc]
    congr 1
    conv_lhs =>
      rw [← List.reverse_reverse (s.dropWhile pySpace),
        ← List.takeWhile_append_dropWhile (p := pySpace)
          (l := (s.dropWhile pySpace).reverse)]
    rw [List.reverse_append, strip]
  · intro c hc; exact List.mem_takeWhile_imp hc
  · intro c hc
    rw [List.mem_reverse] at hc
    exact List.mem_takeWhile_imp hc

theorem strip_all_space {s : List Char} (h : ∀ c ∈ s, pySpace c = true) :
    strip s = [] := by
  have h1 : s.dropWhile pySpace = [] := by
    rw [List.dropWhile_eq_nil_iff]
    intro x hx; exact h x hx
  simp [strip, h1]

theorem strip_eq_nil_iff {s : List Char} :
    strip s = [] ↔ ∀ c ∈ s, pySpace c = true := by
  constructor
  · intro h c hc
    obtain ⟨u, v, hs, hu, hv⟩ := strip_decomp s
    rw [h] at hs
    rw [hs] at hc
    simp only [List.append_nil, List.mem_append] at hc
    rcases hc with hc | hc
    · exact hu c hc
    · exact hv c hc
  · exact strip_all_space

theorem strip_head_not_space {s : List Char} {c : Char} {rest : List Char}
    (h : strip s = c :: rest) : pySpace c = false := by
  have hpre : ∃ w, s.dropWhile pySpace = strip s ++ w := by
    refine ⟨((s.dropWhile pySpace).reverse.takeWhile pySpace).reverse, ?_⟩
    conv_lhs =>
      rw [← List.reverse_reverse (s.dropWhile pySpace),
        ← List.takeWhile_append_dropWhile (p := pySpace)
          (l := (s.dropWhile pySpace).reverse)]
    rw [List.reverse_append, strip]
  obtain ⟨w, hw⟩ := hpre
  rw [h] at hw
  have hhead : (s.dropWhile pySpace).head? = some c := by rw [hw]; rfl
  have h2 := List.head?_dropWhile_not pySpace s
  rw [hhead] at h2
  exact h2

theorem strip_getLast_not_space {s : List Char} {c : Char}
    (h : (strip s).getLast? = some c) : pySpace c = false := by
  have hrev : (strip s).getLast? =
      ((s.dropWhile pySpace).reverse.dropWhile pySpace).head? := by
    rw [strip, List.getLast?_reverse]
  rw [hrev] at h
  have h2 := List.head?_dropWhile_not pySpace (s.dropWhile pySpace).reverse
  rw [h] at h2
  exact h2

theorem dropWhile_eq_self_of_head {p : Char → Bool} {l : List Char}
    (h : ∀ c rest, l = c :: rest → p c = false) : l.dropWhile p = l := by
  cases l with
  | nil => rfl
  | cons c rest =>
    rw [List.dropWhile_cons_of_neg]
    simp [h c rest rfl]

theorem strip_idem (s : List Char) : strip (strip s) = strip s := by
  have h1 : (strip s).dropWhile pySpace = strip s := by
    apply dropWhile_eq_self_of_head
    intro c rest h
    exact strip_head_not_space h
  have h2 : (strip s).reverse.dropWhile pySpace = (strip s).reverse := by
    apply dropWhile_eq_self_of_head
    intro c rest h
    have : (strip s).getLast? = some c := by
      rw [← List.head?_reverse, h]; rfl
    exact strip_getLast_not_space this
  rw [strip, h1, h2, List.reverse_reverse]

theorem strip_ne_nil_of_mem {s : List Char} {c : Char} (hc : c ∈ s)
    (hns : pySpace c = false) : strip s ≠ [] := by
  intro h
  rw [strip_eq_nil_iff] at h
  simp [h c hc] at hns

/-! ## Lemmas about `splitNN`, `splitLines` and the joins -/

theorem splitNN_ne_nil (t : List Char) : splitNN t ≠ [] := by
  rw [splitNN.eq_def]
  split
  · simp
  · rename_i c rest hg
    cases h : splitNN rest <;> simp
  · simp

theorem splitLines_ne_nil (t : List Char) : splitLines t ≠ [] := by
  rw [splitLines.eq_def]
  split
  · simp
  · rename_i c rest hg
    cases h : splitLines rest <;> simp
  · simp

theorem joinNN_splitNN (t : List Char) : joinNN (splitNN t) = t := by
  suffices H : ∀ n t, List.length t ≤ n → joinNN (splitNN t) = t from
    H t.length t le_rfl
  intro n
  induction n with
  | zero =>
    intro t ht
    have h0 : t = [] := by
      cases t with
      | nil => rfl
      | cons a l => simp at ht
    subst h0
    rfl
  | succ n ih =>
    intro t ht
    rw [splitNN.eq_def]
    split
    · rename_i rest
      have hr := ih rest (by simp at ht; omega)
      cases hsp : splitNN rest with
      | nil => exact absurd hsp (splitNN_ne_nil rest)
      | cons a l =>
        rw [hsp] at hr
        simp [joinNN, hr]
    · rename_i c rest _
      have hr := ih rest (by simp at ht; omega)
      cases hsp : splitNN rest with
      | nil => exact absurd hsp (splitNN_ne_nil rest)
      | cons a l =>
        rw [hsp] at hr
        cases l with
        | nil =>
          simp only [joinNN] at hr ⊢
          simp [hr]
        | cons b l' =>
          simp only [joinNN] at hr ⊢
          rw [← hr]
          simp
    · rfl

theorem joinLines_splitLines (t : List Char) : joinLines (splitLines t) = t := by
  suffices H : ∀ n t, List.length t ≤ n → joinLines (splitLines t) = t from
    H t.length t le_rfl
  intro n
  induction n with
  | zero =>
    intro t ht
    have h0 : t = [] := by
      cases t with
      | nil => rfl
      | cons a l => simp at ht
    subst h0
    rfl
  | succ n ih =>
    intro t ht
    rw [splitLines.eq_def]
    split
    · rename_i rest
      have hr := ih rest (by simp at ht; omega)
      cases hsp : splitLines rest with
      | nil => exact absurd hsp (splitLines_ne_nil rest)
      | cons a l =>
        rw [hsp] at hr
        simp [joinLines, hr]
    · rename_i c rest _
      have hr := ih rest (by simp at ht; omega)
      cases hsp : splitLines rest with
      | nil => exact absurd hsp (splitLines_ne_nil rest)
      | cons a l =>
        rw [hsp] at hr
        cases l with
        | nil =>
          simp only [joinLines] at hr ⊢
          simp [hr]
        | cons b l' =>
          simp only [joinLines] at hr ⊢
          rw [← hr]
          simp
    · rfl

theorem hasNN_false_splitNN {t : List Char} (h : hasNN t = false) :
    splitNN t = [t] := by
  suffices H : ∀ n t, List.length t ≤ n → hasNN t = false → splitNN t = [t]
    from H t.length t le_rfl h
  clear h t
  intro n
  induction n with
  | zero =>
    intro t ht _
    have h0 : t = [] := by
      cases t with
      | nil => rfl
      | cons a l => simp at ht
    subst h0
    rfl
  | succ n ih =>
    intro t ht hf
    rw [splitNN.eq_def]
    split
    · rename_i rest
      rw [hasNN] at hf
      exact absurd hf (by simp)
    · rename_i c rest hg
      have hfr : hasNN rest = false := by
        rw [hasNN.eq_def] at hf
        split at hf
        · exact absurd hf (by simp)
        · rename_i l r hl
          injection hl with h1 h2
          rw [h2]; exact hf
        · rename_i hl; simp at hl
      rw [ih rest (by simp at ht; omega) hfr]
    · rfl

theorem mem_joinNN {c : Char} {p : List Char} {L : List (List Char)}
    (hc : c ∈ p) (hp : p ∈ L) : c ∈ joinNN L := by
  induction L with
  | nil => simp at hp
  | cons a l ih =>
    cases l with
    | nil =>
      simp only [List.mem_singleton] at hp
      subst hp
      exact hc
    | cons b l' =>
      rw [joinNN]
      rcases List.mem_cons.mp hp with h | h
      · subst h; exact List.mem_append_left _ hc
      · exact List.mem_append_right _ (by simp [List.mem_cons, ih h])

theorem mem_joinLines {c : Char} {p : List Char} {L : List (List Char)}
    (hc : c ∈ p) (hp : p ∈ L) : c ∈ joinLines L := by
  induction L with
  | nil => simp at hp
  | cons a l ih =>
    cases l with
    | nil =>
      simp only [List.mem_singleton] at hp
      subst hp
      exact hc
    | cons b l' =>
      rw [joinLines]
      rcases List.mem_cons.mp hp with h | h
      · subst h; exact List.mem_append_left _ hc
      · exact List.mem_append_right _ (List.mem_cons_of_mem _ (ih h))

theorem joinLines_length {L : List (List Char)} (h : L ≠ []) :
    (joinLines L).length + 1 = (L.map (fun l => l.length + 1)).sum := by
  induction L with
  | nil => exact absurd rfl h
  | cons a l ih =>
    cases l with
    | nil => simp [joinLines]
    | cons b l' =>
      rw [joinLines]
      have := ih (by simp)
      simp only [List.map_cons, List.sum_cons] at this ⊢
      simp only [List.length_append, List.length_cons]
      omega

theorem splitLines_sumLen (t : List Char) :
    ((splitLines t).map (fun l => l.length + 1)).sum = t.length + 1 := by
  rw [← joinLines_length (splitLines_ne_nil t), joinLines_splitLines]

/-! ## Lemmas about `pyWords` -/

theorem pyWords_nil : pyWords [] = [] := by rw [pyWords]

theorem pyWords_cons_space {c : Char} {rest : List Char}
    (h : pySpace c = true) : pyWords (c :: rest) = pyWords rest := by
  rw [pyWords]
  simp [h]

theorem pyWords_cons_word {c : Char} {rest : List Char}
    (h : pySpace c = false) :
    pyWords (c :: rest) =
      (c :: rest.takeWhile (fun d => !pySpace d)) ::
        pyWords (rest.dropWhile (fun d => !pySpace d)) := by
  rw [pyWords]
  simp [h]

theorem pyWords_eq_nil_of_space {s : List Char}
    (h : ∀ c ∈ s, pySpace c = true) : pyWords s = [] := by
  induction s with
  | nil => exact pyWords_nil
  | cons c rest ih =>
    rw [pyWords_cons_space (h c (by simp))]
    exact ih fun d hd => h d (by simp [hd])

theorem pyWords_append_space {c : Char} (hc : pySpace c = true) :
    ∀ xs ys : List Char, pyWords (xs ++ c :: ys) = pyWords xs ++ pyWords ys := by
  suffices H : ∀ n xs ys, List.length xs ≤ n →
      pyWords (xs ++ c :: ys) = pyWords xs ++ pyWords ys from
    fun xs ys => H xs.length xs ys le_rfl
  intro n
  induction n with
  | zero =>
    intro xs ys hlen
    have h0 : xs = [] := by
      cases xs with
      | nil => rfl
      | cons a l => simp at hlen
    subst h0
    simp [pyWords_cons_space hc, pyWords_nil]
  | succ n ih =>
    intro xs ys hlen
    cases xs with
    | nil => simp [pyWords_cons_space hc, pyWords_nil]
    | cons x xs' =>
      rcases hx : pySpace x with hfalse | htrue
      · rw [List.cons_append, pyWords_cons_word hx, pyWords_cons_word hx]
        by_cases hall : ∀ a ∈ xs', (fun d => !pySpace d) a = true
        · rw [List.takeWhile_append_of_pos hall, List.dropWhile_append_of_pos hall]
          rw [List.takeWhile_cons_of_neg (by simp [hc]),
            List.dropWhile_cons_of_neg (by simp [hc])]
          have ht : xs'.takeWhile (fun d => !pySpace d) = xs' :=
            List.takeWhile_eq_self_iff.mpr hall
          have hd : xs'.dropWhile (fun d => !pySpace d) = [] :=
            List.dropWhile_eq_nil_iff.mpr hall
          rw [ht, hd, pyWords_nil, pyWords_cons_space hc]
          simp
        · have h1 : ¬(xs'.takeWhile (fun d => !pySpace d)).length = xs'.length := by
            intro hl
            apply hall
            intro a ha
            have heq := List.Sublist.eq_of_length
              (List.takeWhile_sublist (l := xs') (fun d => !pySpace d)) hl
            rw [← heq] at ha
            have hmem := List.mem_takeWhile_imp ha
            simpa using hmem
          have h2 : ¬(xs'.dropWhile (fun d => !pySpace d)).isEmpty = true := by
            rw [List.isEmpty_iff]
            intro hnil
            exact hall (List.dropWhile_eq_nil_iff.mp hnil)
          rw [List.takeWhile_append, if_neg h1, List.dropWhile_append, if_neg h2]
          have hrec := ih (xs'.dropWhile (fun d => !pySpace d)) ys
            (by
              have := (List.dropWhile_sublist (l := xs') (fun d => !pySpace d)).length_le
              simp at hlen
              omega)
          rw [hrec]
          simp
      · rw [List.cons_append, pyWords_cons_space hx, pyWords_cons_space hx]
        exact ih xs' ys (by simp at hlen; omega)

theorem pyWords_append_right_space {xs ys : List Char}
    (h : ∀ c ∈ ys, pySpace c = true) : pyWords (xs ++ ys) = pyWords xs := by
  cases ys with
  | nil => simp
  | cons c ys' =>
    have h0 : pyWords ys' = [] :=
      pyWords_eq_nil_of_space fun d hd => h d (by simp [hd])
    rw [pyWords_append_space (h c (by simp)) xs ys', h0]
    simp

theorem pyWords_dropWhile (s : List Char) :
    pyWords (s.dropWhile pySpace) = pyWords s := by
  induction s with
  | nil => rfl
  | cons c rest ih =>
    rcases hc : pySpace c with hfalse | htrue
    · rw [List.dropWhile_cons_of_neg (by simp [hc])]
    · rw [List.dropWhile_cons_of_pos (by simp [hc]), ih,
        pyWords_cons_space hc]

theorem dropWhile_strip_decomp (s : List Char) :
    ∃ w, s.dropWhile pySpace = strip s ++ w ∧ ∀ c ∈ w, pySpace c = true := by
  refine ⟨((s.dropWhile pySpace).reverse.takeWhile pySpace).reverse, ?_, ?_⟩
  · conv_lhs =>
      rw [← List.reverse_reverse (s.dropWhile pySpace),
        ← List.takeWhile_append_dropWhile (p := pySpace)
          (l := (s.dropWhile pySpace).reverse)]
    rw [List.reverse_append, strip]
  · intro c hcm
    rw [List.mem_reverse] at hcm
    exact List.mem_takeWhile_imp hcm

theorem pyWords_strip (s : List Char) : pyWords (strip s) = pyWords s := by
  obtain ⟨w, hw, hws⟩ := dropWhile_strip_decomp s
  calc pyWords (strip s) = pyWords (strip s ++ w) :=
        (pyWords_append_right_space hws).symm
    _ = pyWords (s.dropWhile pySpace) := by rw [hw]
    _ = pyWords s := pyWords_dropWhile s

theorem pyWords_props {s w : List Char} (hw : w ∈ pyWords s) :
    w ≠ [] ∧ ∀ c ∈ w, pySpace c = false := by
  suffices H : ∀ n s, List.length s ≤ n → ∀ w ∈ pyWords s,
      w ≠ [] ∧ ∀ c ∈ w, pySpace c = false from H s.length s le_rfl w hw
  clear hw s w
  intro n
  induction n with
  | zero =>
    intro s hs w hw
    have h0 : s = [] := by
      cases s with
      | nil => rfl
      | cons a l => simp at hs
    subst h0
    rw [pyWords_nil] at hw
    simp at hw
  | succ n ih =>
    intro s hs w hw
    cases s with
    | nil => rw [pyWords_nil] at hw; simp at hw
    | cons c rest =>
      rcases hc : pySpace c with hfalse | htrue
      · rw [pyWords_cons_word hc] at hw
        rcases List.mem_cons.mp hw with h | h
        · subst h
          refine ⟨by simp, ?_⟩
          intro d hd
          rcases List.mem_cons.mp hd with h | h
          · subst h; exact hc
          · have := List.mem_takeWhile_imp h
            simpa using this
        · exact ih (rest.dropWhile (fun d => !pySpace d))
            (by
              have := (List.dropWhile_sublist (l := rest)
                (fun d => !pySpace d)).length_le
              simp at hs
              omega) w h
      · rw [pyWords_cons_space hc] at hw
        exact ih rest (by simp at hs; omega) w hw

theorem pyWords_word {w : List Char} (hne : w ≠ [])
    (hns : ∀ c ∈ w, pySpace c = false) : pyWords w = [w] := by
  cases w with
  | nil => exact absurd rfl hne
  | cons x rest =>
    rw [pyWords_cons_word (hns x (by simp))]
    have ht : rest.takeWhile (fun d => !pySpace d) = rest :=
      List.takeWhile_eq_self_iff.mpr fun a ha => by simp [hns a (by simp [ha])]
    have hd : rest.dropWhile (fun d => !pySpace d) = [] :=
      List.dropWhile_eq_nil_iff.mpr fun a ha => by simp [hns a (by simp [ha])]
    rw [ht, hd, pyWords_nil]

theorem pyWords_joinWords :
    ∀ ws : List (List Char),
      (∀ w ∈ ws, w ≠ [] ∧ ∀ c ∈ w, pySpace c = false) →
      pyWords (joinWords ws) = ws := by
  intro ws
  induction ws with
  | nil => intro _; rw [joinWords, pyWords_nil]
  | cons a l ih =>
    intro h
    cases l with
    | nil =>
      rw [joinWords]
      exact pyWords_word (h a (by simp)).1 (h a (by simp)).2
    | cons b l' =>
      rw [joinWords, pyWords_append_space (by decide) a (joinWords (b :: l'))]
      rw [pyWords_word (h a (by simp)).1 (h a (by simp)).2,
        ih fun w hwm => h w (by simp [hwm])]
      rfl

/-! ## General list helpers -/

theorem flatMap_singleton_eq {α : Type} {l : List α} {f : α → List α}
    (h : ∀ a ∈ l, f a = [a]) : l.flatMap f = l := by
  induction l with
  | nil => simp
  | cons a t ih =>
    rw [List.flatMap_cons, h a (by simp), ih fun b hb => h b (by simp [hb])]
    rfl

theorem flatMap_sublist_mono {α β : Type} {l : List α} {f g : α → List β}
    (h : ∀ a ∈ l, (f a).Sublist (g a)) : (l.flatMap f).Sublist (l.flatMap g) := by
  induction l with
  | nil => simp
  | cons a t ih =>
    rw [List.flatMap_cons, List.flatMap_cons]
    exact List.Sublist.append (h a (by simp)) (ih fun b hb => h b (by simp [hb]))

/-! ## C8: determinism -/

/-- C8.  `chunk_text` is deterministic: two invocations with identical text
and configuration return identical output sequences.  (In the shallow
embedding the chunker is a pure function of its arguments — the source
consults no global mutable state and no randomness — so determinism is
functional congruence.) -/
theorem chunkText_deterministic (self : LangChainTextChunker)
    (t₁ t₂ : List Char) (ocs₁ ocs₂ oco₁ oco₂ : Option Nat)
    (ht : t₁ = t₂) (hcs : ocs₁ = ocs₂) (hco : oco₁ = oco₂) :
    chunkText self t₁ ocs₁ oco₁ = chunkText self t₂ ocs₂ oco₂ := by
  subst ht
  subst hcs
  subst hco
  rfl

/-- Witness for C8 at a concrete input. -/
theorem chunkText_deterministic_witness :
    chunkText {} ['a'] none none = chunkText {} ['a'] none none :=
  chunkText_deterministic {} ['a'] ['a'] none none none none rfl rfl rfl

/-! ## C10: falsy parameters select the construction defaults -/

/-- C10.  `chunk_size=0`/`None` (and likewise `chunk_overlap`) are falsy, so
`chunk_size or self.chunk_size` silently substitutes the instance defaults:
`chunk_text(text, 0, 0)` equals `chunk_text(text)`, both falsy spellings
resolve to the default, and a resolved parameter can only be zero when the
instance default itself is zero — a caller can never make a zero value take
effect through the argument. -/
theorem chunkText_zero_defaults (self : LangChainTextChunker)
    (text : List Char) :
    chunkText self text (some 0) (some 0) = chunkText self text none none ∧
      (∀ d : Nat, orDefault (some 0) d = d ∧ orDefault none d = d) ∧
      (∀ (x : Option Nat) (d : Nat), orDefault x d = 0 → d = 0) := by
  refine ⟨rfl, fun d => ⟨rfl, rfl⟩, ?_⟩
  intro x d h
  match x with
  | none => exact h
  | some n =>
    rw [orDefault] at h
    by_cases hn : n = 0
    · rw [if_pos hn] at h; exact h
    · rw [if_neg hn] at h; exact absurd h hn

/-- Witness for C10 at a concrete input. -/
theorem chunkText_zero_defaults_witness :
    chunkText {} ['a'] (some 0) (some 0) = chunkText {} ['a'] none none ∧
      (0 : Nat) = 0 :=
  ⟨(chunkText_zero_defaults {} ['a']).1,
    (chunkText_zero_defaults {} ['a']).2.2 (some 0) 0 rfl⟩

/-! ## C1: blank-line splitting returns exactly the trimmed segments -/

/-- C1.  For text containing a double newline, when splitting on `"\n\n"`
yields at least two segments that are non-empty after trimming, each of
trimmed length at most `3 * chunk_size`, `chunk_text` returns exactly those
trimmed segments in their original order (hence no returned segment carries
another segment's content). -/
theorem chunkText_blank_split_exact (self : LangChainTextChunker)
    (text : List Char) (ocs oco : Option Nat)
    (hNN : hasNN text = true)
    (hlen : 1 < (((splitNN text).filter (fun c => !(strip c).isEmpty)).map strip).length)
    (hsmall : ∀ s ∈ ((splitNN text).filter (fun c => !(strip c).isEmpty)).map strip,
      s.length ≤ orDefault ocs self.chunk_size * 3) :
    chunkText self text ocs oco =
      ((splitNN text).filter (fun c => !(strip c).isEmpty)).map strip := by
  have hc : ((hasNN text || decide (10 * text.count '\n' > text.count ' ')) &&
      decide (1 < (((splitNN text).filter
        (fun c => !(strip c).isEmpty)).map strip).length)) = true := by
    rw [hNN]
    simp only [Bool.true_or, Bool.true_and, decide_eq_true_eq]
    simpa using hlen
  simp only [chunkText, chunkTextWith, hc, if_true]
  apply flatMap_singleton_eq
  intro s hs
  have h1 : ¬(s = []) := by
    rcases List.mem_map.mp hs with ⟨c, hcf, hcs⟩
    have := (List.mem_filter.mp hcf).2
    intro hnil
    rw [← hcs] at hnil
    simp [hnil] at this
  have h2 : ¬(orDefault ocs self.chunk_size * 3 < s.length) := by
    have := hsmall s hs
    omega
  rw [emitStory, if_neg h1, if_neg h2]

/-- Witness for C1 at a concrete input. -/
theorem chunkText_blank_split_exact_witness :
    chunkText {} "a\n\nb".toList none none =
      ((splitNN "a\n\nb".toList).filter (fun c => !(strip c).isEmpty)).map strip :=
  chunkText_blank_split_exact {} "a\n\nb".toList none none (by decide)
    (by decide) (by decide)

/-! ## C5: oversize segments are replaced in place by the fallback's
sub-chunks; segments within the threshold pass through unchanged -/

/-- C5.  Candidate segments flow through `emitStory` in place, on both the
blank-line path and the boundary path (whose `extractStories` emits via
`emitStory` between consecutive boundaries): a trimmed segment of length at
most `3 * chunk_size` is kept whole as one chunk, and a longer one is
replaced, at its position, by the sub-chunks the fallback splitter returns
for it with the given `chunk_size` and `chunk_overlap` — for any fallback
splitter (the source's is langchain's, outside this repository). -/
theorem chunkText_oversize_dispatch :
    (∀ (split : Nat → Nat → List Char → List (List Char))
       (self : LangChainTextChunker) (text : List Char) (ocs oco : Option Nat),
      ((hasNN text || decide (10 * text.count '\n' > text.count ' ')) &&
          decide (1 < (((splitNN text).filter
            (fun c => !(strip c).isEmpty)).map strip).length)) = true →
      chunkTextWith split self text ocs oco =
        (((splitNN text).filter (fun c => !(strip c).isEmpty)).map strip).flatMap
          (emitStory split (orDefault ocs self.chunk_size)
            (orDefault oco self.chunk_overlap))) ∧
    (∀ (split : Nat → Nat → List Char → List (List Char))
       (self : LangChainTextChunker) (text : List Char) (ocs oco : Option Nat),
      ((hasNN text || decide (10 * text.count '\n' > text.count ' ')) &&
          decide (1 < (((splitNN text).filter
            (fun c => !(strip c).isEmpty)).map strip).length)) = false →
      chunkTextWith split self text ocs oco =
        boundaryChunks split (orDefault ocs self.chunk_size)
          (orDefault oco self.chunk_overlap) text) ∧
    (∀ (split : Nat → Nat → List Char → List (List Char)) (cs co : Nat)
       (s : List Char), s ≠ [] → s.length ≤ cs * 3 →
      emitStory split cs co s = [s]) ∧
    (∀ (split : Nat → Nat → List Char → List (List Char)) (cs co : Nat)
       (s : List Char), cs * 3 < s.length →
      emitStory split cs co s = split cs co s) := by
  refine ⟨?_, ?_, ?_, ?_⟩
  · intro split self text ocs oco h
    simp only [chunkTextWith, h, if_true]
  · intro split self text ocs oco h
    simp only [chunkTextWith, h, Bool.false_eq_true, if_false]
  · intro split cs co s hne hle
    rw [emitStory, if_neg hne, if_neg (by omega)]
  · intro split cs co s hlt
    have hne : ¬(s = []) := by
      intro h0
      rw [h0] at hlt
      simp at hlt
    rw [emitStory, if_neg hne, if_pos hlt]

/-- Witness for C5 at concrete inputs: a blank-line split with one oversize
segment (`chunk_size` 1, threshold 3) and the `emitStory` dispatch on it. -/
theorem chunkText_oversize_dispatch_witness :
    chunkTextWith fallbackSplit { chunk_size := 1, chunk_overlap := 0 }
        "aaaa\n\nbb".toList none none =
      (((splitNN "aaaa\n\nbb".toList).filter
        (fun c => !(strip c).isEmpty)).map strip).flatMap
          (emitStory fallbackSplit 1 0) ∧
    emitStory fallbackSplit 1 0 "aaaa".toList = fallbackSplit 1 0 "aaaa".toList ∧
    emitStory fallbackSplit 1 0 "bb".toList = ["bb".toList] :=
  ⟨chunkText_oversize_dispatch.1 fallbackSplit
      { chunk_size := 1, chunk_overlap := 0 } "aaaa\n\nbb".toList none none
      (by decide),
    chunkText_oversize_dispatch.2.2.2 fallbackSplit 1 0 "aaaa".toList (by decide),
    chunkText_oversize_dispatch.2.2.1 fallbackSplit 1 0 "bb".toList (by decide)
      (by decide)⟩

/-! ## C7: the blank-line/title heuristic -/

/-- Counterexample to C7 as stated: with lines `["a", "", "Hi!"]`, line 1 is
an interior blank line whose successor `"Hi!"` ends in the sentence
terminator `'!'`, yet the code marks a boundary — the code only excludes a
trailing `'.'`, not `'!'` or `'?'`. -/
theorem boundary_heuristic_counterexample :
    ¬(lineIsBoundary [['a'], [], ['H', 'i', '!']] 1 = true ↔
      (strip ([['a'], [], ['H', 'i', '!']].getD 2 []) ≠ [] ∧
        (strip ([['a'], [], ['H', 'i', '!']].getD 2 [])).length < 100 ∧
        endsInSentenceTerminator
          (strip ([['a'], [], ['H', 'i', '!']].getD 2 [])) = false)) := by
  decide

/-- C7 (amended).  In the pattern-matching fallback, an interior line that
is blank after trimming marks a story boundary exactly when the following
line is non-empty after trimming, shorter than 100 characters, and does not
end in a period (`'.'` only — a trailing `'!'` or `'?'` does not suppress
the boundary). -/
theorem boundary_heuristic_blank_line (lines : List (List Char)) (i : Nat)
    (h0 : 0 < i) (h1 : i < lines.length - 1)
    (hblank : strip (lines.getD i []) = []) :
    lineIsBoundary lines i = true ↔
      (strip (lines.getD (i + 1) []) ≠ [] ∧
        (strip (lines.getD (i + 1) [])).length < 100 ∧
        (strip (lines.getD (i + 1) [])).getLast? ≠ some '.') := by
  have hpat : storyPatterns.any (fun p => p []) = false := by decide
  have h2 : i + 1 < lines.length := by omega
  simp only [lineIsBoundary, hblank, hpat, Bool.false_or, h1, h2,
    decide_eq_true_eq, Bool.true_and, List.isEmpty_nil, Bool.and_eq_true,
    Bool.not_eq_true', List.isEmpty_eq_false, beq_eq_false_iff_ne, ne_eq,
    decide_eq_true_iff, h0]
  tauto

/-- Witness for the amended C7 at a concrete input where the heuristic
fires: lines `["a", "", "Title"]`. -/
theorem boundary_heuristic_blank_line_witness :
    lineIsBoundary [['a'], [], ['T', 'i', 't', 'l', 'e']] 1 = true ↔
      (strip ([['a'], [], ['T', 'i', 't', 'l', 'e']].getD 2 []) ≠ [] ∧
        (strip ([['a'], [], ['T', 'i', 't', 'l', 'e']].getD 2 [])).length < 100 ∧
        (strip ([['a'], [], ['T', 'i', 't', 'l', 'e']].getD 2 [])).getLast? ≠
          some '.') :=
  boundary_heuristic_blank_line [['a'], [], ['T', 'i', 't', 'l', 'e']] 1
    (by decide) (by decide) (by decide)

/-! ## Unfolding lemmas for `hasNN` and `splitLines` -/

theorem hasNN_cons_of_ne {c : Char} {r : List Char} (hc : c ≠ '\n') :
    hasNN (c :: r) = hasNN r := by
  rw [hasNN.eq_def]
  split
  · rename_i heq
    injection heq with hc' _
    exact absurd hc' hc
  · rename_i l rest heq
    injection heq with _ hr
    rw [hr]
  · rename_i heq
    exact absurd heq (by simp)

theorem hasNN_nl_cons_of_ne {c : Char} {r : List Char} (hc : c ≠ '\n') :
    hasNN ('\n' :: c :: r) = hasNN (c :: r) := by
  rw [hasNN.eq_def]
  split
  · rename_i rest heq
    injection heq with _ h2
    injection h2 with hc' _
    exact absurd hc' hc
  · rename_i l rest heq
    injection heq with _ hr
    rw [hr]
  · rename_i heq
    exact absurd heq (by simp)

theorem splitLines_cons_of_ne {c : Char} {r : List Char} (hc : c ≠ '\n') :
    ∃ h' tl, splitLines r = h' :: tl ∧ splitLines (c :: r) = (c :: h') :: tl := by
  cases hsp : splitLines r with
  | nil => exact absurd hsp (splitLines_ne_nil r)
  | cons h' tl =>
    refine ⟨h', tl, rfl, ?_⟩
    rw [splitLines.eq_def]
    split
    · rename_i x rest heq
      injection heq with h1 _
      exact absurd h1 hc
    · rename_i cc rest2 hguard heq
      injection heq with h1 h2
      subst h1
      subst h2
      rw [hsp]
    · rename_i heq
      exact absurd heq (by simp)

theorem splitLines_nl_cons (r : List Char) :
    splitLines ('\n' :: r) = [] :: splitLines r := by
  rw [splitLines]

/-- A text none of whose lines is empty contains no `"\n\n"`. -/
theorem hasNN_false_of_lines {t : List Char}
    (h : ∀ l ∈ splitLines t, l ≠ []) : hasNN t = false := by
  suffices H : ∀ n t, List.length t ≤ n → (∀ l ∈ splitLines t, l ≠ []) →
      hasNN t = false from H t.length t le_rfl h
  clear h t
  intro n
  induction n with
  | zero =>
    intro t ht _
    have h0 : t = [] := by
      cases t with
      | nil => rfl
      | cons a l => simp at ht
    subst h0
    decide
  | succ n ih =>
    intro t ht h
    cases t with
    | nil => decide
    | cons c r =>
      by_cases hc : c = '\n'
      · subst hc
        have hmem : ([] : List Char) ∈ splitLines ('\n' :: r) := by
          rw [splitLines_nl_cons]
          simp
        exact absurd (h [] hmem) (by simp)
      · obtain ⟨h', tl, hsp, hspc⟩ := splitLines_cons_of_ne (r := r) hc
        rw [hasNN_cons_of_ne hc]
        cases r with
        | nil => decide
        | cons c2 r2 =>
          by_cases hc2 : c2 = '\n'
          · subst hc2
            have hr2 : ∀ l ∈ splitLines r2, l ≠ [] := by
              intro l hl
              rw [splitLines_nl_cons] at hsp
              injection hsp with hh htl
              apply h l
              rw [hspc]
              apply List.mem_cons_of_mem
              rw [← htl]
              exact hl
            cases r2 with
            | nil => decide
            | cons c3 r3 =>
              by_cases hc3 : c3 = '\n'
              · subst hc3
                have : ([] : List Char) ∈ splitLines ('\n' :: r3) := by
                  rw [splitLines_nl_cons]
                  simp
                exact absurd (hr2 [] this) (by simp)
              · rw [hasNN_nl_cons_of_ne hc3]
                exact ih (c3 :: r3) (by simp at ht ⊢; omega) hr2
          · apply ih (c2 :: r2) (by simp at ht ⊢; omega)
            intro l hl
            obtain ⟨h2, tl2, hsp2, hspc2⟩ := splitLines_cons_of_ne (r := r2) hc2
            rw [hspc2] at hl
            rcases List.mem_cons.mp hl with hE | hT
            · subst hE; simp
            · apply h l
              rw [hspc]
              rw [hspc2] at hsp
              injection hsp with hh htl
              exact List.mem_cons_of_mem _ (htl ▸ hT)

/-! ## Lemmas about `lineIsBoundary` and `findBoundariesAux` -/

theorem storyPatterns_nil : storyPatterns.any (fun p => p []) = false := by
  decide

theorem strip_nil : strip ([] : List Char) = [] := rfl

theorem getD_in_range {lines : List (List Char)} {j : Nat}
    (hj : j < lines.length) : lines.getD j [] = lines[j] := by
  rw [List.getD_eq_getElem?_getD, List.getElem?_eq_getElem hj]
  rfl

theorem getD_out_of_range {lines : List (List Char)} {j : Nat}
    (hj : lines.length ≤ j) : lines.getD j [] = [] := by
  rw [List.getD_eq_getElem?_getD, List.getElem?_eq_none hj]
  rfl

/-- No line of a whitespace-only text is ever a boundary. -/
theorem lineIsBoundary_all_space {lines : List (List Char)}
    (h : ∀ l ∈ lines, ∀ c ∈ l, pySpace c = true) (i : Nat) :
    lineIsBoundary lines i = false := by
  have hstrip : ∀ j, strip (lines.getD j []) = [] := by
    intro j
    by_cases hj : j < lines.length
    · rw [getD_in_range hj]
      exact strip_all_space (h _ (List.getElem_mem hj))
    · rw [getD_out_of_range (by omega)]
      rfl
  simp only [lineIsBoundary, hstrip i, hstrip (i + 1), storyPatterns_nil,
    Bool.false_or]
  simp

/-- An index at or past the number of lines is never a boundary. -/
theorem lineIsBoundary_out_of_range {lines : List (List Char)} {i : Nat}
    (h : lines.length ≤ i) : lineIsBoundary lines i = false := by
  have h0 : lines.getD i [] = [] := getD_out_of_range h
  have h2 : ¬(i < lines.length - 1) := by omega
  simp only [lineIsBoundary, h0, strip_nil, storyPatterns_nil, Bool.false_or]
  simp [h2]

theorem findBoundariesAux_eq_nil {lines : List (List Char)}
    (hb : ∀ j, lineIsBoundary lines j = false) :
    ∀ (rest : List (List Char)) (i pos : Nat),
      findBoundariesAux lines rest i pos = [] := by
  intro rest
  induction rest with
  | nil => intro i pos; rfl
  | cons l r ih =>
    intro i pos
    rw [findBoundariesAux, hb i]
    simp [ih]

/-! ## C2: empty or whitespace-only input yields the empty sequence -/

/-- C2.  For input that is empty or consists only of whitespace,
`chunk_text` returns the empty list (the embedding is total, so no
exception can occur). -/
theorem chunkText_whitespace_empty (self : LangChainTextChunker)
    (text : List Char) (ocs oco : Option Nat)
    (h : ∀ c ∈ text, pySpace c = true) :
    chunkText self text ocs oco = [] := by
  have hfil : (splitNN text).filter (fun c => !(strip c).isEmpty) = [] := by
    rw [List.filter_eq_nil_iff]
    intro p hp
    have hs : strip p = [] := by
      apply strip_all_space
      intro c hcp
      apply h
      rw [← joinNN_splitNN text]
      exact mem_joinNN hcp hp
    simp [hs]
  have hlines : ∀ l ∈ splitLines text, ∀ c ∈ l, pySpace c = true := by
    intro l hl c hcl
    apply h
    rw [← joinLines_splitLines text]
    exact mem_joinLines hcl hl
  have haux : findBoundariesAux (splitLines text) (splitLines text) 0 0 = [] :=
    findBoundariesAux_eq_nil (lineIsBoundary_all_space hlines) _ 0 0
  have hstript : strip text = [] := strip_all_space h
  simp only [chunkText, chunkTextWith, hfil, List.map_nil, List.length_nil]
  rw [if_neg (by simp)]
  rw [boundaryChunks, findStoryBoundaries]
  simp only [haux]
  simp [hstript]

/-- Witness for C2 at a concrete whitespace-only input. -/
theorem chunkText_whitespace_empty_witness :
    chunkText {} " \n\n\t ".toList none none = [] :=
  chunkText_whitespace_empty {} " \n\n\t ".toList none none (by decide)

/-! ## C3: no blank line and no boundary pattern gives one trimmed chunk -/

/-- C3.  For non-empty text with no blank line (no line empty after
trimming) and no line the boundary decision accepts, `chunk_text` returns
exactly one chunk: the input trimmed. -/
theorem chunkText_single_chunk (self : LangChainTextChunker)
    (text : List Char) (ocs oco : Option Nat)
    (hne : strip text ≠ [])
    (hlines : ∀ l ∈ splitLines text, strip l ≠ [])
    (hnob : ∀ i, i < (splitLines text).length →
      lineIsBoundary (splitLines text) i = false) :
    chunkText self text ocs oco = [strip text] := by
  have hlne : ∀ l ∈ splitLines text, l ≠ [] := by
    intro l hl hnil
    exact hlines l hl (by rw [hnil]; rfl)
  have hsplit : splitNN text = [text] :=
    hasNN_false_splitNN (hasNN_false_of_lines hlne)
  have hb : ∀ j, lineIsBoundary (splitLines text) j = false := by
    intro j
    by_cases hj : j < (splitLines text).length
    · exact hnob j hj
    · exact lineIsBoundary_out_of_range (by omega)
  have haux : findBoundariesAux (splitLines text) (splitLines text) 0 0 = [] :=
    findBoundariesAux_eq_nil hb _ 0 0
  have hfil : (splitNN text).filter (fun c => !(strip c).isEmpty) = [text] := by
    rw [hsplit]
    simp [List.filter_cons, hne]
  simp only [chunkText, chunkTextWith, hfil, List.map_cons, List.map_nil,
    List.length_cons, List.length_nil]
  rw [if_neg (by simp)]
  rw [boundaryChunks, findStoryBoundaries]
  simp only [haux]
  simp [hne]

/-- Witness for C3 at a concrete input with no blank line and no boundary
pattern. -/
theorem chunkText_single_chunk_witness :
    chunkText {} "just a story.\nwith two lines.".toList none none =
      [strip "just a story.\nwith two lines.".toList] :=
  chunkText_single_chunk {} "just a story.\nwith two lines.".toList none none
    (by decide) (by decide) (by decide)

/-! ## C9: fixed-window variant — two chunks and forced forward progress -/

/-- One-step unfolding of the fixed-window loop. -/
theorem fwLoop_eq (ws : List (List Char)) (minW maxW ov start : Nat) :
    fwLoop ws minW maxW ov start =
      (if minW ≤ min (start + maxW) ws.length - start
        then [joinWords ((ws.drop start).take (min (start + maxW) ws.length - start))]
        else []) ++
      (if min (start + maxW) ws.length < ws.length
        then fwLoop ws minW maxW ov (nextStart start (min (start + maxW) ws.length) ov)
        else []) := by
  rw [fwLoop]
  by_cases h : min (start + maxW) ws.length < ws.length
  · simp [h]
  · simp [h]

/-- C9.  (i) For text with exactly `maxWords + 1` words and
`overlapWords < maxWords` (with a window-compatible `minWords`, e.g. the
configured default 1), the fixed-window chunker returns at least two
chunks.  (ii) The window start always advances by
`max (windowEnd - overlapWords) (previousStart + 1)`, which is strictly
greater than the previous start for every configuration — including
`overlapWords ≥ maxWords` — so the loop always terminates (`fwLoop` is
total by this measure). -/
theorem fixedWindow_two_chunks_and_progress :
    (∀ (minW maxW ov : Nat) (text : List Char),
      (pyWords text).length = maxW + 1 → ov < maxW → minW ≤ ov + 1 →
      2 ≤ (fixedWindowChunk minW maxW ov text).length) ∧
    (∀ s e ov : Nat,
      nextStart s e ov = max (e - ov) (s + 1) ∧ s < nextStart s e ov) := by
  constructor
  · intro minW maxW ov text hlen hov hmin
    rw [fixedWindowChunk]
    simp only [hlen]
    rw [if_neg (by omega)]
    have e1 : min (0 + maxW) (pyWords text).length = maxW := by
      rw [hlen]; omega
    have hns : nextStart 0 maxW ov = maxW - ov := by
      rw [nextStart]; omega
    have e2 : min (maxW - ov + maxW) (pyWords text).length = maxW + 1 := by
      rw [hlen]; omega
    have hcs : fwLoop (pyWords text) minW maxW ov 0 =
        [joinWords (((pyWords text).drop 0).take (maxW - 0))] ++
          ([joinWords (((pyWords text).drop (maxW - ov)).take
            (maxW + 1 - (maxW - ov)))] ++ []) := by
      rw [fwLoop_eq, e1, if_pos (by omega), if_pos (by rw [hlen]; omega), hns]
      rw [fwLoop_eq, e2, if_pos (by omega), if_neg (by rw [hlen]; omega)]
    rw [hcs]
    rw [if_neg (by simp)]
    simp
  · intro s e ov
    refine ⟨rfl, ?_⟩
    calc s < s + 1 := Nat.lt_succ_self s
      _ ≤ max (e - ov) (s + 1) := Nat.le_max_right _ _

/-- Witness for C9: three words, `maxWords = 2`, `overlapWords = 1`,
`minWords = 1` give two chunks, and a concrete progress step. -/
theorem fixedWindow_two_chunks_and_progress_witness :
    2 ≤ (fixedWindowChunk 1 2 1 "a b c".toList).length ∧ 5 < nextStart 5 3 7 :=
  ⟨fixedWindow_two_chunks_and_progress.1 1 2 1 "a b c".toList
      (by
        have h1 : pyWords "a b c".toList = [['a'], ['b'], ['c']] := by
          simp +decide [pyWords_cons_word, pyWords_cons_space, pyWords_nil,
            pySpace, List.takeWhile_cons, List.dropWhile_cons]
        rw [h1]
        rfl)
      (by decide) (by decide),
    (fixedWindow_two_chunks_and_progress.2 5 3 7).2⟩

/-! ## Facts about the fixed-window loop -/

theorem mem_joinWords {c : Char} {w : List Char} {L : List (List Char)}
    (hc : c ∈ w) (hw : w ∈ L) : c ∈ joinWords L := by
  induction L with
  | nil => simp at hw
  | cons a l ih =>
    cases l with
    | nil =>
      simp only [List.mem_singleton] at hw
      subst hw
      exact hc
    | cons b l' =>
      rw [joinWords]
      rcases List.mem_cons.mp hw with h | h
      · subst h; exact List.mem_append_left _ hc
      · exact List.mem_append_right _ (List.mem_cons_of_mem _ (ih h))

/-- Every chunk the window loop emits is the join of a non-empty window of
words from `ws`. -/
theorem fwLoop_mem {ws : List (List Char)} {minW maxW ov : Nat}
    (hmin : 1 ≤ minW) :
    ∀ (start : Nat) (c : List Char), c ∈ fwLoop ws minW maxW ov start →
      ∃ window : List (List Char), window ≠ [] ∧ (∀ w ∈ window, w ∈ ws) ∧
        c = joinWords window := by
  suffices H : ∀ k start c, ws.length - start ≤ k →
      c ∈ fwLoop ws minW maxW ov start →
      ∃ window : List (List Char), window ≠ [] ∧ (∀ w ∈ window, w ∈ ws) ∧
        c = joinWords window from
    fun start c hc => H (ws.length - start) start c le_rfl hc
  intro k
  induction k with
  | zero =>
    intro start c hk hc
    rw [fwLoop_eq] at hc
    rw [if_neg (by omega), if_neg (by omega)] at hc
    simp at hc
  | succ k ih =>
    intro start c hk hc
    rw [fwLoop_eq] at hc
    rcases List.mem_append.mp hc with h1 | h2
    · by_cases hcond : minW ≤ min (start + maxW) ws.length - start
      · rw [if_pos hcond] at h1
        simp only [List.mem_singleton] at h1
        refine ⟨(ws.drop start).take (min (start + maxW) ws.length - start),
          ?_, ?_, h1⟩
        · apply List.ne_nil_of_length_pos
          rw [List.length_take, List.length_drop]
          omega
        · intro w hww
          exact List.mem_of_mem_drop (List.mem_of_mem_take hww)
      · rw [if_neg hcond] at h1
        simp at h1
    · by_cases hcond : min (start + maxW) ws.length < ws.length
      · rw [if_pos hcond] at h2
        have hns : start + 1 ≤ nextStart start (min (start + maxW) ws.length) ov := by
          rw [nextStart]
          exact Nat.le_max_right _ _
        exact ih (nextStart start (min (start + maxW) ws.length) ov) c
          (by omega) h2
      · rw [if_neg hcond] at h2
        simp at h2

/-- With `maxWords = 0` (and `minWords = 1`) no window is ever emitted. -/
theorem fwLoop_maxW_zero {ws : List (List Char)} {ov : Nat} :
    ∀ start, fwLoop ws 1 0 ov start = [] := by
  suffices H : ∀ k start, ws.length - start ≤ k → fwLoop ws 1 0 ov start = []
    from fun start => H (ws.length - start) start le_rfl
  intro k
  induction k with
  | zero =>
    intro start hk
    rw [fwLoop_eq, if_neg (by omega), if_neg (by omega)]
    rfl
  | succ k ih =>
    intro start hk
    rw [fwLoop_eq, if_neg (by omega)]
    by_cases hcond : min (start + 0) ws.length < ws.length
    · rw [if_pos hcond]
      have hns : start + 1 ≤ nextStart start (min (start + 0) ws.length) ov := by
        rw [nextStart]
        exact Nat.le_max_right _ _
      rw [ih (nextStart start (min (start + 0) ws.length) ov) (by omega)]
      rfl
    · rw [if_neg hcond]
      rfl

/-- Coverage of the window loop: from any in-range start, the remaining
words appear, in order, in the emitted chunks (with `minWords = 1` and a
positive window size). -/
theorem fwLoop_cover {ws : List (List Char)} {maxW ov : Nat}
    (hw : ∀ w ∈ ws, w ≠ [] ∧ ∀ c ∈ w, pySpace c = false) (hmaxW : 1 ≤ maxW) :
    ∀ start, start < ws.length →
      (ws.drop start).Sublist ((fwLoop ws 1 maxW ov start).flatMap pyWords) := by
  suffices H : ∀ k start, ws.length - start ≤ k → start < ws.length →
      (ws.drop start).Sublist ((fwLoop ws 1 maxW ov start).flatMap pyWords)
    from fun start hlt => H (ws.length - start) start le_rfl hlt
  intro k
  induction k with
  | zero =>
    intro start hk hlt
    exact absurd hlt (by omega)
  | succ k ih =>
    intro start hk hlt
    rw [fwLoop_eq]
    have hwin : pyWords (joinWords
        ((ws.drop start).take (min (start + maxW) ws.length - start))) =
        (ws.drop start).take (min (start + maxW) ws.length - start) :=
      pyWords_joinWords _
        (fun w hww => hw w (List.mem_of_mem_drop (List.mem_of_mem_take hww)))
    by_cases hE : min (start + maxW) ws.length < ws.length
    · have heq : min (start + maxW) ws.length = start + maxW := by omega
      rw [if_pos (by omega), if_pos hE]
      rw [List.flatMap_append]
      simp only [List.flatMap_cons, List.flatMap_nil, List.append_nil, hwin]
      have hdec : (ws.drop start).take (min (start + maxW) ws.length - start) ++
          ws.drop (min (start + maxW) ws.length) = ws.drop start := by
        have h := List.drop_take_append_drop ws start
          (min (start + maxW) ws.length - start)
        rwa [show start + (min (start + maxW) ws.length - start) =
          min (start + maxW) ws.length by omega] at h
      have hs1 : start + 1 ≤ nextStart start (min (start + maxW) ws.length) ov := by
        rw [nextStart]
        exact Nat.le_max_right _ _
      have hs2 : nextStart start (min (start + maxW) ws.length) ov ≤
          min (start + maxW) ws.length := by
        rw [nextStart]
        omega
      have hlt' : nextStart start (min (start + maxW) ws.length) ov < ws.length := by
        omega
      have hIH := ih (nextStart start (min (start + maxW) ws.length) ov)
        (by omega) hlt'
      have hde : (ws.drop (min (start + maxW) ws.length)).Sublist
          (ws.drop (nextStart start (min (start + maxW) ws.length) ov)) :=
        List.drop_sublist_drop_left ws hs2
      have hfin : ((ws.drop start).take (min (start + maxW) ws.length - start) ++
          ws.drop (min (start + maxW) ws.length)).Sublist
            ((ws.drop start).take (min (start + maxW) ws.length - start) ++
              (fwLoop ws 1 maxW ov
                (nextStart start (min (start + maxW) ws.length) ov)).flatMap
                pyWords) :=
        List.Sublist.append (List.Sublist.refl _) (hde.trans hIH)
      rw [hdec] at hfin
      exact hfin
    · rw [if_pos (by omega), if_neg hE]
      simp only [List.append_nil, List.flatMap_cons, List.flatMap_nil, hwin]
      have he_n : min (start + maxW) ws.length = ws.length := by omega
      rw [he_n]
      have hfull : (ws.drop start).take (ws.length - start) = ws.drop start :=
        List.take_of_length_le (by rw [List.length_drop])
      rw [hfull]

/-- Coverage of the spec-modelled fallback splitter. -/
theorem fallbackSplit_cover (cs co : Nat) (s : List Char) :
    (pyWords s).Sublist ((fallbackSplit cs co s).flatMap pyWords) := by
  rw [fallbackSplit]
  simp only [fixedWindowChunk]
  by_cases hn : (pyWords s).length ≤ cs
  · rw [if_pos hn]
    by_cases hse : strip s = []
    · rw [if_pos hse]
      have h0 : pyWords s = [] :=
        pyWords_eq_nil_of_space (strip_eq_nil_iff.mp hse)
      simp [h0]
    · rw [if_neg hse]
      simp only [List.flatMap_cons, List.flatMap_nil, List.append_nil]
      rw [pyWords_strip]
  · rw [if_neg hn]
    by_cases hcs : fwLoop (pyWords s) 1 cs co 0 = []
    · rw [if_pos hcs]
      simp only [List.flatMap_cons, List.flatMap_nil, List.append_nil]
      rw [pyWords_strip]
    · rw [if_neg hcs]
      rcases Nat.eq_zero_or_pos cs with h0 | hpos
      · subst h0
        exact absurd (fwLoop_maxW_zero 0) hcs
      · have h := @fwLoop_cover (pyWords s) cs co
          (fun w hww => pyWords_props hww) hpos 0 (by omega)
        simpa using h

/-- Every chunk of the spec-modelled fallback splitter is non-empty after
trimming. -/
theorem fallbackSplit_mem_nonempty (cs co : Nat) (s c : List Char)
    (hc : c ∈ fallbackSplit cs co s) : strip c ≠ [] := by
  rw [fallbackSplit] at hc
  simp only [fixedWindowChunk] at hc
  by_cases hn : (pyWords s).length ≤ cs
  · rw [if_pos hn] at hc
    by_cases hse : strip s = []
    · rw [if_pos hse] at hc
      simp at hc
    · rw [if_neg hse] at hc
      simp only [List.mem_singleton] at hc
      subst hc
      rw [strip_idem]
      exact hse
  · rw [if_neg hn] at hc
    have hsne : strip s ≠ [] := by
      intro h0
      have h1 : pyWords s = [] :=
        pyWords_eq_nil_of_space (strip_eq_nil_iff.mp h0)
      rw [h1] at hn
      simp at hn
    by_cases hcs : fwLoop (pyWords s) 1 cs co 0 = []
    · rw [if_pos hcs] at hc
      simp only [List.mem_singleton] at hc
      subst hc
      rw [strip_idem]
      exact hsne
    · rw [if_neg hcs] at hc
      obtain ⟨window, hwne, hwm, hcj⟩ := fwLoop_mem le_rfl 0 c hc
      subst hcj
      obtain ⟨w₀, wrest, rfl⟩ := List.exists_cons_of_ne_nil hwne
      obtain ⟨hw0ne, hw0sp⟩ := pyWords_props (hwm w₀ (by simp))
      obtain ⟨ch, chrest, rfl⟩ := List.exists_cons_of_ne_nil hw0ne
      exact strip_ne_nil_of_mem
        (mem_joinWords (List.mem_cons_self ch chrest) (List.mem_cons_self _ _))
        (hw0sp ch (by simp))

/-! ## C6: every emitted chunk is non-empty after trimming -/

theorem emitStory_mem_nonempty {cs co : Nat} {x c : List Char}
    (hc : c ∈ emitStory fallbackSplit cs co (strip x)) : strip c ≠ [] := by
  rw [emitStory] at hc
  by_cases h0 : strip x = []
  · rw [if_pos h0] at hc
    simp at hc
  · rw [if_neg h0] at hc
    by_cases hov : cs * 3 < (strip x).length
    · rw [if_pos hov] at hc
      exact fallbackSplit_mem_nonempty _ _ _ _ hc
    · rw [if_neg hov] at hc
      simp only [List.mem_singleton] at hc
      subst hc
      rw [strip_idem]
      exact h0

theorem extractStories_mem_nonempty {cs co : Nat} {text : List Char} :
    ∀ (bs : List Nat) (c : List Char),
      c ∈ extractStories fallbackSplit cs co text bs → strip c ≠ [] := by
  intro bs
  induction bs with
  | nil =>
    intro c hc
    simp [extractStories] at hc
  | cons b rest ih =>
    intro c hc
    cases rest with
    | nil =>
      rw [extractStories] at hc
      exact emitStory_mem_nonempty hc
    | cons b₂ rest' =>
      rw [extractStories] at hc
      rcases List.mem_append.mp hc with h1 | h2
      · exact emitStory_mem_nonempty h1
      · exact ih c h2

/-- C6.  For every input and configuration, every chunk `chunk_text` emits
is non-empty after trimming; empty-after-trim candidates are dropped and
never appear in the output. -/
theorem chunkText_chunks_nonempty (self : LangChainTextChunker)
    (text : List Char) (ocs oco : Option Nat) (c : List Char)
    (hc : c ∈ chunkText self text ocs oco) : strip c ≠ [] := by
  simp only [chunkText, chunkTextWith] at hc
  by_cases hcond : ((hasNN text || decide (10 * text.count '\n' > text.count ' ')) &&
      decide (1 < (((splitNN text).filter
        (fun c => !(strip c).isEmpty)).map strip).length)) = true
  · rw [if_pos hcond] at hc
    obtain ⟨s, hs, hcs⟩ := List.mem_flatMap.mp hc
    obtain ⟨p, hpf, hps⟩ := List.mem_map.mp hs
    subst hps
    exact emitStory_mem_nonempty hcs
  · rw [if_neg hcond] at hc
    rw [boundaryChunks] at hc
    by_cases hb : (findStoryBoundaries text).length ≤ 1
    · rw [if_pos hb] at hc
      by_cases hst : strip text = []
      · rw [if_pos hst] at hc
        simp at hc
      · rw [if_neg hst] at hc
        simp only [List.mem_singleton] at hc
        subst hc
        rw [strip_idem]
        exact hst
    · rw [if_neg hb] at hc
      exact extractStories_mem_nonempty _ c hc

/-- Witness for C6 at a concrete input. -/
theorem chunkText_chunks_nonempty_witness : strip ['a'] ≠ [] :=
  chunkText_chunks_nonempty {} "a\n\nb".toList none none ['a'] (by decide)

/-! ## Coverage machinery for C4 -/

theorem pyWords_joinNN : ∀ L : List (List Char),
    pyWords (joinNN L) = L.flatMap pyWords := by
  intro L
  induction L with
  | nil => simp [joinNN, pyWords_nil]
  | cons a l ih =>
    cases l with
    | nil => simp [joinNN]
    | cons b l' =>
      rw [joinNN, pyWords_append_space (by decide) a ('\n' :: joinNN (b :: l')),
        pyWords_cons_space (by decide), ih]
      simp

theorem ascendingFrom_mono {lo lo' : Nat} (h : lo' ≤ lo) :
    ∀ {l : List Nat}, ascendingFrom lo l → ascendingFrom lo' l := by
  intro l
  cases l with
  | nil => intro _; trivial
  | cons b r =>
    intro hb
    exact ⟨Nat.le_trans h hb.1, hb.2⟩

theorem ascendingFrom_of_forall_le {lo lo' : Nat} {l : List Nat}
    (h : ascendingFrom lo l) (hall : ∀ b ∈ l, lo' ≤ b) :
    ascendingFrom lo' l := by
  cases l with
  | nil => trivial
  | cons b r => exact ⟨hall b (by simp), h.2⟩

/-- The boundary positions produced by the loop are strictly increasing,
start no earlier than the running position, stay within the text, and each
is immediately preceded by a `'\n'`. -/
theorem findBoundariesAux_spec (text : List Char) :
    ∀ (rest : List (List Char)) (i pos : Nat),
      joinLines rest = text.drop pos →
      pos ≤ text.length →
      (pos = 0 ∨ (1 ≤ pos ∧ text.getD (pos - 1) ' ' = '\n')) →
      ascendingFrom pos (findBoundariesAux (splitLines text) rest i pos) ∧
        ∀ b ∈ findBoundariesAux (splitLines text) rest i pos,
          b ≤ text.length ∧ 1 ≤ b ∧ text.getD (b - 1) ' ' = '\n' := by
  intro rest
  induction rest with
  | nil =>
    intro i pos _ _ _
    rw [findBoundariesAux]
    exact ⟨trivial, by simp⟩
  | cons l rest' ih =>
    intro i pos hjoin hle hnl
    rw [findBoundariesAux]
    cases rest' with
    | nil =>
      rw [findBoundariesAux]
      rw [List.append_nil]
      by_cases hb : (lineIsBoundary (splitLines text) i && decide (0 < pos)) = true
      · rw [if_pos hb]
        have hpos : 0 < pos := by
          rcases Bool.and_eq_true_iff.mp hb with ⟨_, h2⟩
          exact of_decide_eq_true h2
        refine ⟨⟨le_rfl, trivial⟩, ?_⟩
        intro b hbm
        simp only [List.mem_singleton] at hbm
        subst hbm
        refine ⟨hle, hpos, ?_⟩
        rcases hnl with h0 | ⟨_, hnl2⟩
        · omega
        · exact hnl2
      · rw [if_neg hb]
        exact ⟨trivial, by simp⟩
    | cons q rest'' =>
      rw [joinLines] at hjoin
      have hlen2 : l.length + 1 + (joinLines (q :: rest'')).length =
          text.length - pos := by
        have hcc := congrArg List.length hjoin
        rw [List.length_append, List.length_cons, List.length_drop] at hcc
        omega
      have hle' : pos + l.length + 1 ≤ text.length := by omega
      have hjoin' : joinLines (q :: rest'') = text.drop (pos + l.length + 1) := by
        have h1 : text.drop (pos + l.length + 1) =
            (text.drop pos).drop (l.length + 1) := by
          rw [List.drop_drop, show pos + (l.length + 1) = pos + l.length + 1
            from by omega]
        rw [h1, ← hjoin, show l ++ '\n' :: joinLines (q :: rest'') =
          (l ++ ['\n']) ++ joinLines (q :: rest'') from by simp,
          show l.length + 1 = (l ++ ['\n']).length from by simp,
          List.drop_left]
      have hnl' : pos + l.length + 1 = 0 ∨ (1 ≤ pos + l.length + 1 ∧
          text.getD (pos + l.length + 1 - 1) ' ' = '\n') := by
        right
        refine ⟨by omega, ?_⟩
        have h1 : (text.drop pos).getD l.length ' ' = '\n' := by
          rw [← hjoin, List.getD_eq_getElem?_getD,
            List.getElem?_append_right le_rfl]
          simp
        rw [List.getD_eq_getElem?_getD, List.getElem?_drop] at h1
        rw [show pos + l.length + 1 - 1 = pos + l.length from by omega,
          List.getD_eq_getElem?_getD]
        exact h1
      obtain ⟨hasc, hmem⟩ := ih (i + 1) (pos + l.length + 1) hjoin' hle' hnl'
      constructor
      · by_cases hb : (lineIsBoundary (splitLines text) i && decide (0 < pos)) = true
        · rw [if_pos hb]
          rw [List.singleton_append]
          exact ⟨le_rfl, ascendingFrom_mono (by omega) hasc⟩
        · rw [if_neg hb, List.nil_append]
          exact ascendingFrom_mono (by omega) hasc
      · intro b hbm
        by_cases hb : (lineIsBoundary (splitLines text) i && decide (0 < pos)) = true
        · rw [if_pos hb] at hbm
          rcases List.mem_append.mp hbm with h1 | h2
          · simp only [List.mem_singleton] at h1
            rw [h1]
            have hpos : 0 < pos := by
              rcases Bool.and_eq_true_iff.mp hb with ⟨_, h2⟩
              exact of_decide_eq_true h2
            refine ⟨hle, hpos, ?_⟩
            rcases hnl with h0 | ⟨_, hnl2⟩
            · omega
            · exact hnl2
          · exact hmem b h2
        · rw [if_neg hb, List.nil_append] at hbm
          exact hmem b hbm

theorem emitStory_cover {cs co : Nat} (story : List Char) :
    (pyWords story).Sublist
      ((emitStory fallbackSplit cs co story).flatMap pyWords) := by
  rw [emitStory]
  by_cases h0 : story = []
  · rw [if_pos h0]
    subst h0
    simp [pyWords_nil]
  · rw [if_neg h0]
    by_cases hov : cs * 3 < story.length
    · rw [if_pos hov]
      exact fallbackSplit_cover cs co story
    · rw [if_neg hov]
      simp

/-- Coverage of the boundary-extraction loop over an ascending, in-range,
newline-preceded list of cut positions. -/
theorem extractStories_cover (cs co : Nat) (text : List Char) :
    ∀ (bs : List Nat) (b : Nat),
      b ≤ text.length →
      ascendingFrom (b + 1) bs →
      (∀ b' ∈ bs, b' ≤ text.length ∧ 1 ≤ b' ∧ text.getD (b' - 1) ' ' = '\n') →
      (pyWords (text.drop b)).Sublist
        ((extractStories fallbackSplit cs co text (b :: bs)).flatMap pyWords) := by
  intro bs
  induction bs with
  | nil =>
    intro b hble _ _
    rw [extractStories]
    have hsl : pySlice text b text.length = text.drop b := by
      rw [pySlice]
      exact List.take_of_length_le (by rw [List.length_drop])
    rw [hsl]
    have h1 : pyWords (text.drop b) = pyWords (strip (text.drop b)) :=
      (pyWords_strip _).symm
    rw [h1]
    exact emitStory_cover _
  | cons b₂ rest ih =>
    intro b hble hasc hmem
    obtain ⟨hbb2, hasc'⟩ := hasc
    obtain ⟨hb2le, hb2pos, hb2nl⟩ := hmem b₂ (by simp)
    rw [extractStories, List.flatMap_append]
    have hb2lt : b₂ - 1 < text.length := by omega
    have hnl : text[b₂ - 1] = '\n' := by
      rw [List.getD_eq_getElem?_getD, List.getElem?_eq_getElem hb2lt] at hb2nl
      simpa using hb2nl
    have hdec : text.drop b =
        (text.drop b).take (b₂ - 1 - b) ++ '\n' :: text.drop b₂ := by
      have h1 := List.drop_take_append_drop text b (b₂ - 1 - b)
      rw [show b + (b₂ - 1 - b) = b₂ - 1 from by omega] at h1
      rw [List.drop_eq_getElem_cons hb2lt, hnl,
        show b₂ - 1 + 1 = b₂ from by omega] at h1
      exact h1.symm
    have hAlen : ((text.drop b).take (b₂ - 1 - b)).length = b₂ - 1 - b := by
      rw [List.length_take, List.length_drop]
      omega
    have hslice : pySlice text b b₂ =
        (text.drop b).take (b₂ - 1 - b) ++ ['\n'] := by
      rw [pySlice]
      conv_lhs => rw [hdec]
      rw [List.take_append_eq_append_take, hAlen,
        List.take_of_length_le (by rw [hAlen]; omega),
        show b₂ - b - (b₂ - 1 - b) = 1 from by omega]
      rfl
    have hA : pyWords (text.drop b) =
        pyWords (strip (pySlice text b b₂)) ++ pyWords (text.drop b₂) := by
      calc pyWords (text.drop b)
          = pyWords ((text.drop b).take (b₂ - 1 - b) ++ '\n' :: text.drop b₂) := by
            rw [← hdec]
        _ = pyWords ((text.drop b).take (b₂ - 1 - b)) ++ pyWords (text.drop b₂) :=
            pyWords_append_space (by decide) _ _
        _ = pyWords (pySlice text b b₂) ++ pyWords (text.drop b₂) := by
            rw [hslice, pyWords_append_right_space (by
              intro c hcm
              simp only [List.mem_singleton] at hcm
              subst hcm
              decide)]
        _ = pyWords (strip (pySlice text b b₂)) ++ pyWords (text.drop b₂) := by
            rw [pyWords_strip]
    rw [hA]
    exact List.Sublist.append (emitStory_cover _)
      (ih b₂ hb2le hasc' (fun b' hb' => hmem b' (List.mem_cons_of_mem _ hb')))

theorem flatMap_map_filter {α β : Type} (l : List α) (P : α → Bool)
    (f : α → α) (F : α → List β) :
    ((l.filter P).map f).flatMap F =
      l.flatMap (fun a => if P a then F (f a) else []) := by
  induction l with
  | nil => simp
  | cons a t ih =>
    by_cases hP : P a = true
    · simp only [List.filter_cons, hP, if_true, List.map_cons,
        List.flatMap_cons, ih]
    · simp only [List.filter_cons, hP, Bool.false_eq_true, if_false,
        List.flatMap_cons, ih, List.nil_append]

/-! ## C4: coverage of the source text -/

/-- C4.  Coverage invariant: the words of the input (its maximal runs of
non-whitespace characters) appear, in input order, inside the concatenation
of the returned chunks — nothing is lost except whitespace trimmed at chunk
edges, and overlap can only repeat content (`Sublist` permits the extra
copies).  Boundary positions always sit at line starts, so no word is ever
split across chunks.  The oversize fallback is the spec-modelled splitter
standing in for langchain's. -/
theorem chunkText_coverage (self : LangChainTextChunker) (text : List Char)
    (ocs oco : Option Nat) :
    (pyWords text).Sublist ((chunkText self text ocs oco).flatMap pyWords) := by
  simp only [chunkText, chunkTextWith]
  by_cases hcond : ((hasNN text || decide (10 * text.count '\n' > text.count ' ')) &&
      decide (1 < (((splitNN text).filter
        (fun c => !(strip c).isEmpty)).map strip).length)) = true
  · rw [if_pos hcond]
    have h1 : pyWords text = (splitNN text).flatMap pyWords := by
      conv_lhs => rw [← joinNN_splitNN text]
      exact pyWords_joinNN _
    rw [h1, List.flatMap_assoc, flatMap_map_filter]
    apply flatMap_sublist_mono
    intro p hp
    by_cases hPp : (!(strip p).isEmpty) = true
    · rw [if_pos hPp]
      have h2 : pyWords p = pyWords (strip p) := (pyWords_strip p).symm
      rw [h2]
      exact emitStory_cover (strip p)
    · rw [if_neg hPp]
      have hsp : strip p = [] := by
        simpa using hPp
      have h3 : pyWords p = [] :=
        pyWords_eq_nil_of_space (strip_eq_nil_iff.mp hsp)
      rw [h3]
  · rw [if_neg hcond]
    rw [boundaryChunks]
    by_cases hb : (findStoryBoundaries text).length ≤ 1
    · rw [if_pos hb]
      by_cases hst : strip text = []
      · rw [if_pos hst]
        have h0 : pyWords text = [] :=
          pyWords_eq_nil_of_space (strip_eq_nil_iff.mp hst)
        simp [h0]
      · rw [if_neg hst]
        simp only [List.flatMap_cons, List.flatMap_nil, List.append_nil]
        rw [pyWords_strip]
    · rw [if_neg hb]
      have hfsb : findStoryBoundaries text =
          0 :: findBoundariesAux (splitLines text) (splitLines text) 0 0 := rfl
      rw [hfsb]
      obtain ⟨hasc, hmem⟩ := findBoundariesAux_spec text (splitLines text) 0 0
        (by rw [joinLines_splitLines]; rfl)
        (by omega)
        (Or.inl rfl)
      have hcover := extractStories_cover (orDefault ocs self.chunk_size)
        (orDefault oco self.chunk_overlap) text
        (findBoundariesAux (splitLines text) (splitLines text) 0 0) 0
        (by omega)
        (ascendingFrom_of_forall_le hasc (fun b hbm => (hmem b hbm).2.1))
        hmem
      simpa using hcover

end JStory
